import Mathlib

/-!
# modvanity: discovery filter, module discovery, page generation

A shallow embedding of `main.go` of modvanity.

Conventions of the embedding.

* A Go `string` is modelled as `List Char` (`Str`).  The only bytes the program
  inspects are ASCII (`/`, `.`, `_` and the letters of fixed names), so for
  UTF-8 text the byte-wise and the character-wise readings agree.
* `path/filepath` is modelled with the Unix separator `/`, which is also the
  separator of the file names of a git tree.
* The go.mod parser and the outcome of the file-system calls are parameters.
  The loop and the template take the escapers of `html/template` as an argument;
  the escapers that the library puts on the actions of this template are given
  in the namespace `template`.
* A run-time panic is an outcome of its own, apart from a returned error.
-/

namespace Modvanity

/-- A Go string. -/
abbrev Str := List Char

/-! ## Library functions used by the program -/

namespace strings

/-- Go: `len(s) >= len(prefix) && s[:len(prefix)] == prefix`. -/
def HasPrefix (s pre : Str) : Bool :=
  decide (pre.length ≤ s.length) && (s.take pre.length == pre)

/-- Go: `len(s) >= len(suffix) && s[len(s)-len(suffix):] == suffix`. -/
def HasSuffix (s suf : Str) : Bool :=
  decide (suf.length ≤ s.length) && (s.drop (s.length - suf.length) == suf)

/-- Go: `if HasSuffix(s, suffix) { return s[:len(s)-len(suffix)] }; return s`. -/
def TrimSuffix (s suf : Str) : Str :=
  if HasSuffix s suf then s.take (s.length - suf.length) else s

end strings

namespace filepath

/-- The part of `path` after its last `/` (all of `path` when it has none):
the backward scan `for i >= 0 && path[i] != '/' { i-- }`. -/
def lastElem (path : Str) : Str :=
  (path.reverse.takeWhile (fun c => c != '/')).reverse

/-- Go `filepath.Split`: `path[:i+1], path[i+1:]` with `i` the index of the last `/`. -/
def Split (path : Str) : Str × Str :=
  let file := lastElem path
  (path.take (path.length - file.length), file)

/-- Go `filepath.Base`. -/
def Base (path : Str) : Str :=
  if path = [] then ".".toList
  else
    -- strip trailing slashes
    let p := (path.reverse.dropWhile (fun c => c == '/')).reverse
    -- find the last element
    let b := lastElem p
    -- if empty now, it had only slashes
    if b = [] then "/".toList else b

end filepath

/-! ## The exclusion filter of `findModules` -/

/-- What one pass through the body of the `for` loop of `findModules` does. -/
inductive LoopStep where
  /-- The directory part is empty: `break`. -/
  | brk : LoopStep
  /-- The element is `internal` or `testdata`: `return nil`. -/
  | ret : LoopStep
  /-- Neither: the loop goes round again with the new `dir`. -/
  | next (dir : Str) : LoopStep
  deriving DecidableEq, Repr

/-- The body of the `for` loop (lines 192-200), from the value of `dir` on entry. -/
def loopBody (dir : Str) : LoopStep :=
  let dir1 := strings.TrimSuffix dir "/".toList
  let (dir2, file) := filepath.Split dir1
  if dir2 = [] then LoopStep.brk
  else if file = "internal".toList ∨ file = "testdata".toList then LoopStep.ret
  else LoopStep.next dir2

/-- The `for` loop run for at most `fuel` passes.  The result is `none` when the
fuel does not suffice, and otherwise whether the loop left through `return nil`
(`true`) or through `break` (`false`), with the number of passes made. -/
def ancestorLoop : Nat → Str → Option (Bool × Nat)
  | 0, _ => none
  | fuel + 1, dir =>
    match loopBody dir with
    | LoopStep.brk => some (false, 1)
    | LoopStep.ret => some (true, 1)
    | LoopStep.next d => (ancestorLoop fuel d).map (fun r => (r.1, r.2 + 1))

/-- The first test of the callback (line 185). -/
def nameGuard (name : Str) : Bool :=
  strings.HasPrefix name ".".toList || strings.HasPrefix name "_".toList
    || filepath.Base name != "go.mod".toList

/-- The filter part of the callback (lines 185-201) with `fuel` passes allowed to
the loop: whether the callback returns nil before parsing, and the number of
loop passes made. -/
def filterRun (fuel : Nat) (name : Str) : Option (Bool × Nat) :=
  if nameGuard name then some (true, 0)
  else ancestorLoop fuel (filepath.Split name).1

/-- Whether the callback of `findModules` leaves a file unread.  The loop is
given `name.length` passes, which `filterRun_total` shows to be enough. -/
def shouldExclude (name : Str) : Bool :=
  match filterRun name.length name with
  | some r => r.1
  | none => true

/-! ## File names given by their path elements -/

/-- The path written `s0/s1/.../s(n-1)`. -/
def joinPath : List Str → Str
  | [] => []
  | [s] => s
  | s :: t :: rest => s ++ '/' :: joinPath (t :: rest)

/-- The directory part `d0/d1/.../d(k-1)/` of a path, every element followed by `/`. -/
def dirPrefix : List Str → Str
  | [] => []
  | d :: rest => d ++ '/' :: dirPrefix rest

/-- An element of a file name in a git tree: not empty and without `/`. -/
def IsElem (s : Str) : Prop := s ≠ [] ∧ '/' ∉ s

instance decIsElem (s : Str) : Decidable (IsElem s) := by
  unfold IsElem
  infer_instance

/-- A relative file name of a tree: at least one element, all of them proper. -/
def WellFormed (segs : List Str) : Prop := segs ≠ [] ∧ ∀ s ∈ segs, IsElem s

instance decWellFormed (segs : List Str) : Decidable (WellFormed segs) := by
  unfold WellFormed
  infer_instance

/-- The two directory names the loop looks for. -/
def reserved (s : Str) : Bool :=
  decide (s = "internal".toList ∨ s = "testdata".toList)


/-! ## `findModules` -/

/-- A file of the tree as `findModules` sees it: its name and the outcome of
`f.Contents()`, which is the text of the file or a read error. -/
structure File (ε : Type) where
  Name : Str
  Contents : Except ε Str

/-- The `module.Version` of a module directive, as far as it is used. -/
structure ModVersion where
  Path : Str
  deriving DecidableEq, Repr

/-- The module directive of a parsed go.mod. -/
structure Module where
  Mod : ModVersion
  deriving DecidableEq, Repr

/-- The value `modfile.ParseLax` returns with a nil error, as far as the program
reads it.  The field `Module` is a pointer: it is `none` (nil) when the go.mod has
no module directive, which the parser accepts. -/
structure ModFile where
  Module : Option Module
  deriving DecidableEq, Repr

/-- The type of `modfile.ParseLax` applied to a file name and the file's text. -/
abbrev Parser (ε : Type) := Str → Str → Except ε ModFile

/-- How a call ends: it returns a value, or a run-time panic ends the program. -/
inductive Outcome (α : Type) where
  | returns (a : α) : Outcome α
  | panics : Outcome α
  deriving DecidableEq, Repr

/-- The callback handed to `ForEach` (lines 184-216).  The captured variable
`modules` is passed in and out; the second component is the returned `error`.
The selection `m.Module.Mod.Path` on line 214 dereferences `m.Module` and panics
when that pointer is nil. -/
def visit {ε : Type} (ParseLax : Parser ε) (modules : List Str) (f : File ε) :
    Outcome (List Str × Option ε) :=
  if shouldExclude f.Name then Outcome.returns (modules, none)
  else
    match f.Contents with
    | Except.error err => Outcome.returns (modules, some err)
    | Except.ok content =>
      match ParseLax f.Name content with
      | Except.error err => Outcome.returns (modules, some err)
      | Except.ok m =>
        match m.Module with
        | none => Outcome.panics
        | some md => Outcome.returns (modules ++ [md.Mod.Path], none)

/-- The iteration `tree.Files().ForEach(cb)` over a tree whose enumeration
succeeds: the callback is run on the files in order and the first error it
returns ends the iteration and is the result; a panic of the callback is a panic
of the iteration.  (The sentinel `storer.ErrStop` of the library is not an error
that reading or parsing returns.) -/
def ForEach {ε σ : Type} (cb : σ → File ε → Outcome (σ × Option ε)) :
    List (File ε) → σ → Outcome (σ × Option ε)
  | [], s => Outcome.returns (s, none)
  | f :: rest, s =>
    match cb s f with
    | Outcome.panics => Outcome.panics
    | Outcome.returns (s2, some err) => Outcome.returns (s2, some err)
    | Outcome.returns (s2, none) => ForEach cb rest s2

/-- The function `findModules`: the pair it returns, the nil slice being `[]`, or
the panic that ends it. -/
def findModules {ε : Type} (ParseLax : Parser ε) (tree : List (File ε)) :
    Outcome (List Str × Option ε) :=
  match ForEach (visit ParseLax) tree [] with
  | Outcome.panics => Outcome.panics
  | Outcome.returns (_, some err) => Outcome.returns ([], some err)
  | Outcome.returns (modules, none) => Outcome.returns (modules, none)

/-- Reading a file and parsing it, down to the declared module path: an error,
or the path of the module directive, or `none` when the parsed file has no
module directive. -/
def readModule {ε : Type} (ParseLax : Parser ε) (f : File ε) : Except ε (Option Str) :=
  match f.Contents with
  | Except.error err => Except.error err
  | Except.ok content =>
    match ParseLax f.Name content with
    | Except.error err => Except.error err
    | Except.ok m => Except.ok (m.Module.map (fun md => md.Mod.Path))

/-- The files of a tree that the filter lets through, in enumeration order. -/
def eligible {ε : Type} (tree : List (File ε)) : List (File ε) :=
  tree.filter (fun f => !shouldExclude f.Name)

/-! ## `filepath.Join` -/

namespace filepath

/-- One step of Go `Clean` on the next path element, with the elements kept so
far held last-first.  Empty elements and `.` are dropped; `..` removes the last
kept element when that is a name, is kept when the path is relative and nothing
can be removed, and is dropped at the root; any other element is kept. -/
def cleanStep (rooted : Bool) (out : List Str) (e : Str) : List Str :=
  if e = [] ∨ e = ".".toList then out
  else if e = "..".toList then
    match out with
    | [] => if rooted then [] else ["..".toList]
    | top :: below => if top = "..".toList then e :: top :: below else below
  else e :: out

/-- Go `filepath.Clean` with separator `/`. -/
def Clean (path : Str) : Str :=
  if path = [] then ".".toList
  else
    let rooted := path.head? == some '/'
    let out := ((path.splitOn '/').foldl (cleanStep rooted) []).reverse
    let body := "/".toList.intercalate out
    if rooted then '/' :: body
    else if body = [] then ".".toList else body

/-- Go `filepath.Join` of two elements: empty elements at the front are ignored,
the rest is joined with `/` and cleaned; the result is empty when both are. -/
def Join (a b : Str) : Str :=
  if a ≠ [] then Clean (a ++ '/' :: b)
  else if b ≠ [] then Clean b
  else []

/-- Go `filepath.FromSlash`: each `/` replaced by the separator, which is `/`. -/
def FromSlash (path : Str) : Str := path

end filepath

/-! ## The template -/

/-- The Go type `GoImport`. -/
structure GoImport where
  ImportPrefix : Str
  VCS : Str
  RepoRoot : Str
  deriving DecidableEq, Repr

/-- The Go type `TemplateArgs`. -/
structure TemplateArgs where
  GoImport : GoImport
  GodocRedirect : Bool
  GodocURL : Str
  deriving DecidableEq, Repr

/-- The escaping that `html/template` puts on the value of an action, by the
place of the action in the markup.  Each is a function of the value alone. -/
structure Escapers where
  /-- In the `content` attribute of the go-import tag. -/
  attr : Str → Str
  /-- In the `url` of the `content` attribute of the refresh tag. -/
  refresh : Str → Str
  /-- In an `href` attribute. -/
  href : Str → Str
  /-- In the text of an element. -/
  text : Str → Str

/-! ### The escapers of `html/template`

The functions that the library puts on the actions of this template: the value
of an action in a quoted attribute goes through `attrEscaper`, in the text of an
element through `htmlEscaper`, and at the start of an `href` through `urlFilter`,
`urlNormalizer` and `attrEscaper` in turn.  All values here are Go strings, so
the typed-content shortcuts of the library do not apply. -/

namespace strings

/-- Go `strings.Cut` with a separator of one byte: the text before the first
separator, the text after it, and whether the separator was found. -/
def Cut (s : Str) (sep : Char) : Str × Str × Bool :=
  if sep ∈ s then
    (s.takeWhile (fun c => c != sep), (s.dropWhile (fun c => c != sep)).drop 1, true)
  else (s, [], false)

/-- Go `strings.Contains` for a substring of one byte. -/
def Contains (s : Str) (c : Char) : Bool := decide (c ∈ s)

/-- The representative of a rune under Unicode simple case folding, for the runes
that fold together with an ASCII letter: the upper-case ASCII letters, the long
s (U+017F) and the Kelvin sign (U+212A).  Other runes stand for themselves. -/
def foldRune (c : Char) : Char :=
  if 'A' ≤ c ∧ c ≤ 'Z' then Char.ofNat (c.toNat + 32)
  else if c = Char.ofNat 0x17F then 's'
  else if c = Char.ofNat 0x212A then 'k'
  else c

/-- Go `strings.EqualFold` against an ASCII word `t`. -/
def EqualFold (s t : Str) : Bool := s.map foldRune == t.map foldRune

end strings

namespace template

/-- The table `htmlReplacementTable`: the replacement of a rune, or the rune itself. -/
def htmlReplacement (c : Char) : Str :=
  if c = Char.ofNat 0 then [Char.ofNat 0xFFFD]
  else if c = '"' then "&#34;".toList
  else if c = '&' then "&amp;".toList
  else if c = Char.ofNat 39 then "&#39;".toList
  else if c = '+' then "&#43;".toList
  else if c = '<' then "&lt;".toList
  else if c = '>' then "&gt;".toList
  else [c]

/-- The function `htmlReplacer` with `htmlReplacementTable` and `badRunes` set. -/
def htmlReplacer (s : Str) : Str := (s.map htmlReplacement).flatten

/-- The function `htmlEscaper` on a Go string. -/
def htmlEscaper (s : Str) : Str := htmlReplacer s

/-- The function `attrEscaper` on a Go string. -/
def attrEscaper (s : Str) : Str := htmlReplacer s

/-- The function `isSafeURL`: a URL is unsafe when it has a `:` with no `/` before
it and the text before the `:` is none of `http`, `https`, `mailto`, in any case. -/
def isSafeURL (s : Str) : Bool :=
  let cut := strings.Cut s ':'
  if cut.2.2 && !strings.Contains cut.1 '/' then
    if !strings.EqualFold cut.1 "http".toList && !strings.EqualFold cut.1 "https".toList
        && !strings.EqualFold cut.1 "mailto".toList then false
    else true
  else true

/-- The function `urlFilter` on a Go string: an unsafe URL becomes `#ZgotmplZ`. -/
def urlFilter (s : Str) : Str :=
  if !isSafeURL s then "#ZgotmplZ".toList else s

/-- The function `isHex`. -/
def isHex (c : Char) : Bool :=
  decide (('0' ≤ c ∧ c ≤ '9') ∨ ('a' ≤ c ∧ c ≤ 'f') ∨ ('A' ≤ c ∧ c ≤ 'F'))

/-- The bytes of a rune in UTF-8. -/
def utf8Bytes (c : Char) : List Nat :=
  let v := c.toNat
  if v < 0x80 then [v]
  else if v < 0x800 then [0xC0 + v / 64, 0x80 + v % 64]
  else if v < 0x10000 then [0xE0 + v / 4096, 0x80 + v / 64 % 64, 0x80 + v % 64]
  else [0xF0 + v / 262144, 0x80 + v / 4096 % 64, 0x80 + v / 64 % 64, 0x80 + v % 64]

/-- A hexadecimal digit in lower case. -/
def hexDigit (n : Nat) : Char := "0123456789abcdef".toList.getD n '0'

/-- The text `fmt.Fprintf(b, "%%%02x", c)` for each byte of a rune. -/
def pctEncode (c : Char) : Str :=
  ((utf8Bytes c).map (fun b => ['%', hexDigit (b / 16), hexDigit (b % 16)])).flatten

/-- Whether `processURLOnto`, normalizing, copies the byte `c` that is followed by
`rest`: reserved and unreserved characters are copied, and `%` is copied when two
hexadecimal digits follow it. -/
def keepsByte (c : Char) (rest : Str) : Bool :=
  decide (c ∈ "!#$&*+,/:;=?@[]".toList) || decide (c ∈ "-._~".toList)
    || (decide (c = '%') &&
          match rest with
          | a :: b :: _ => isHex a && isHex b
          | _ => false)
    || decide ('a' ≤ c ∧ c ≤ 'z') || decide ('A' ≤ c ∧ c ≤ 'Z')
    || decide ('0' ≤ c ∧ c ≤ '9')

/-- The function `urlNormalizer` on a Go string: every byte that is not copied is
written as `%` and two hexadecimal digits. -/
def urlNormalizer : Str → Str
  | [] => []
  | c :: rest => (if keepsByte c rest then [c] else pctEncode c) ++ urlNormalizer rest

/-- The pipeline on an action at the start of an `href` attribute. -/
def hrefEscaper (s : Str) : Str := attrEscaper (urlNormalizer (urlFilter s))

/-- The escapers that `html/template` puts on the actions of `tmpl`.  In the
refresh tag the value is the documentation URL, which is safe; a release of the
library that also runs `urlFilter` in that place writes the same text for it. -/
def escapers : Escapers :=
  { attr := attrEscaper, refresh := attrEscaper, href := hrefEscaper, text := htmlEscaper }

end template

/-- The go-import tag (line 157). -/
def goImportTag (e : Escapers) (g : GoImport) : Str :=
  "<meta name=\"go-import\" content=\"".toList ++ e.attr g.ImportPrefix ++ " ".toList
    ++ e.attr g.VCS ++ " ".toList ++ e.attr g.RepoRoot ++ "\">".toList

/-- The start of the refresh tag, up to its `content` attribute. -/
def refreshOpen : Str := "<meta http-equiv=\"refresh\"".toList

/-- The refresh tag (line 158). -/
def refreshTag (e : Escapers) (url : Str) : Str :=
  refreshOpen ++ " content=\"0; url=\x27".toList ++ e.refresh url ++ "\x27\">".toList

/-- A hyperlink whose target and text are both `url`. -/
def anchor (e : Escapers) (url : Str) : Str :=
  "<a href=\"".toList ++ e.href url ++ "\">".toList ++ e.text url ++ "</a>".toList

/-- The text between `<body>` and `</body>`, without the white space that the
trim markers of the actions remove (lines 161-167). -/
def body (e : Escapers) (args : TemplateArgs) : Str :=
  if args.GodocRedirect then
    "Redirecting to ".toList ++ anchor e args.GodocURL
  else
    "Repository: ".toList ++ anchor e args.GoImport.RepoRoot
      ++ "\n\t\t<br>\n\t\tGodoc: ".toList ++ anchor e args.GodocURL

/-- The text that executing the template `tmpl` on `args` writes (lines 153-170).
`with .GoImport` always runs its body, a struct being never empty. -/
def tmpl (e : Escapers) (args : TemplateArgs) : Str :=
  "<!DOCTYPE html>\n<html>\n\t<head>\n\t\t<meta charset=\"utf-8\">\n\t\t".toList
    ++ goImportTag e args.GoImport
    ++ "\n\t\t".toList
    ++ (if args.GodocRedirect then refreshTag e args.GodocURL else [])
    ++ "\n\t</head>\n\t<body>\n\t\t".toList
    ++ body e args
    ++ "\n\t</body>\n</html>\n".toList

/-- The command line: the two arguments and the flags `-o` and `-redirect`. -/
structure Config where
  importPrefix : Str
  repoURL : Str
  outputDir : Str
  godocRedirect : Bool

/-- The outcome of the file-system calls of the loop, `true` for a nil error. -/
structure FileSystem where
  /-- The call `os.MkdirAll(dir, permDir)`. -/
  MkdirAll : Str → Bool
  /-- The call `os.Create(indexPath)`. -/
  Create : Str → Bool
  /-- The call `htmlTmpl.Execute(f, args)`, writing the text to the file. -/
  Execute : Str → Str → Bool
  /-- The call `f.Close()`. -/
  Close : Str → Bool

/-- A file system on which every call succeeds. -/
def FileSystem.sound : FileSystem :=
  { MkdirAll := fun _ => true, Create := fun _ => true,
    Execute := fun _ _ => true, Close := fun _ => true }

/-- A document written by the loop. -/
structure Document where
  path : Str
  content : Str
  deriving DecidableEq, Repr

/-- The documentation URL `fmt.Sprintf("https://pkg.go.dev/%s", module)`. -/
def godocURL (module : Str) : Str := "https://pkg.go.dev/".toList ++ module

/-- The value `args` built for a module (lines 134-142). -/
def templateArgs (cfg : Config) (module : Str) : TemplateArgs :=
  { GoImport := { ImportPrefix := cfg.importPrefix, VCS := "git".toList, RepoRoot := cfg.repoURL },
    GodocURL := godocURL module,
    GodocRedirect := cfg.godocRedirect }

/-- The path of the document of a module (lines 121 and 125). -/
def indexPath (cfg : Config) (module : Str) : Str :=
  filepath.Join (filepath.Join cfg.outputDir (filepath.FromSlash module)) "index.html".toList

/-- The document of a module. -/
def page (e : Escapers) (cfg : Config) (module : Str) : Document :=
  { path := indexPath cfg module, content := tmpl e (templateArgs cfg module) }

/-- The loop of `main` over the modules found (lines 113-150): the documents
written, in order, and whether the loop ran to its end (`false` when a call
failed and `log.Fatalf` ended the program). -/
def generate (e : Escapers) (fs : FileSystem) (cfg : Config) :
    List Str → List Document × Bool
  | [] => ([], true)
  | module :: rest =>
    if !strings.HasPrefix module cfg.importPrefix then generate e fs cfg rest
    else
      let dir := filepath.Join cfg.outputDir (filepath.FromSlash module)
      if !fs.MkdirAll dir then ([], false)
      else
        let indexPath := filepath.Join dir "index.html".toList
        if !fs.Create indexPath then ([], false)
        else
          let args := templateArgs cfg module
          if !fs.Execute indexPath (tmpl e args) then ([], false)
          else
            let doc : Document := { path := indexPath, content := tmpl e args }
            if !fs.Close indexPath then ([doc], false)
            else
              let r := generate e fs cfg rest
              (doc :: r.1, r.2)

/-- Whether the four file-system calls made for a module all succeed. -/
def writeSucceeds (e : Escapers) (fs : FileSystem) (cfg : Config) (module : Str) : Bool :=
  fs.MkdirAll (filepath.Join cfg.outputDir (filepath.FromSlash module))
    && fs.Create (indexPath cfg module)
    && fs.Execute (indexPath cfg module) (tmpl e (templateArgs cfg module))
    && fs.Close (indexPath cfg module)

/-! ## Counting the places of a pattern in a templated text -/

/-- A piece of a templated text: fixed text, or the value number `i`. -/
inductive Chunk where
  | lit (s : Str) : Chunk
  | val (i : Nat) : Chunk
  deriving DecidableEq, Repr

/-- The text of a list of pieces under the values `vals`. -/
def flatten (vals : Nat → Str) : List Chunk → Str
  | [] => []
  | Chunk.lit s :: cs => s ++ flatten vals cs
  | Chunk.val i :: cs => vals i ++ flatten vals cs

/-- A parser for the examples: the text `module p` declares the path `p`, the
empty text and a text that starts with `go ` parse without a module directive,
and any other text is an error. -/
def exampleParser : Parser Unit := fun _ content =>
  if strings.HasPrefix content "module ".toList then
    Except.ok { Module := some { Mod := { Path := content.drop 7 } } }
  else if content = [] ∨ strings.HasPrefix content "go ".toList then
    Except.ok { Module := none }
  else Except.error ()

/-- A tree for the examples: two files declare the same path, one excluded file
is malformed, one excluded file is unreadable. -/
def exampleTree : List (File Unit) :=
  [ { Name := "a/go.mod".toList, Contents := Except.ok "module x/a".toList },
    { Name := "a/testdata/go.mod".toList, Contents := Except.ok "modul".toList },
    { Name := "b/go.mod".toList, Contents := Except.ok "module x/a".toList },
    { Name := "README".toList, Contents := Except.error () },
    { Name := "go.mod".toList, Contents := Except.ok "module x".toList } ]

/-- A tree whose first go.mod has no module directive and whose second is malformed. -/
def bareThenMalformed : List (File Unit) :=
  [ { Name := "a/go.mod".toList, Contents := Except.ok "go 1.20\n".toList },
    { Name := "b/go.mod".toList, Contents := Except.ok "modul".toList } ]

/-- A tree whose files all read and parse, the second without a module directive. -/
def declaredThenBare : List (File Unit) :=
  [ { Name := "a/go.mod".toList, Contents := Except.ok "module x/a".toList },
    { Name := "b/go.mod".toList, Contents := Except.ok "go 1.20\n".toList } ]

/-- A command line for the examples. -/
def exampleConfig : Config :=
  { importPrefix := "x".toList, repoURL := "https://github.com/o/r".toList,
    outputDir := "html".toList, godocRedirect := true }

/-- A file system for the examples: the calls succeed except below `html/y`. -/
def exampleFS : FileSystem :=
  { MkdirAll := fun dir => !strings.HasPrefix dir "html/y".toList,
    Create := fun _ => true, Execute := fun _ _ => true, Close := fun _ => true }

theorem takeWhile_append_stop {α : Type} (p : α → Bool) (a b : List α) (x : α)
    (ha : ∀ c ∈ a, p c = true) (hx : p x = false) :
    (a ++ x :: b).takeWhile p = a := by
  induction a with
  | nil => simp [List.takeWhile, hx]
  | cons c a ih =>
    have hc : p c = true := ha c (List.mem_cons_self _ _)
    have := ih (fun d hd => ha d (List.mem_cons_of_mem _ hd))
    simp [List.takeWhile, hc, this]

theorem takeWhile_all {α : Type} (p : α → Bool) (a : List α)
    (ha : ∀ c ∈ a, p c = true) : a.takeWhile p = a := by
  induction a with
  | nil => rfl
  | cons c a ih =>
    have hc : p c = true := ha c (List.mem_cons_self _ _)
    have := ih (fun d hd => ha d (List.mem_cons_of_mem _ hd))
    simp [List.takeWhile, hc, this]

theorem ne_slash_of_not_mem {f : Str} (hf : '/' ∉ f) :
    ∀ c ∈ f.reverse, (fun c : Char => c != '/') c = true := by
  intro c hc
  have hc2 : c ∈ f := List.mem_reverse.mp hc
  have : c ≠ '/' := fun h => hf (h ▸ hc2)
  simpa using this

theorem lastElem_append_slash (p f : Str) (hf : '/' ∉ f) :
    filepath.lastElem (p ++ '/' :: f) = f := by
  unfold filepath.lastElem
  have h : (p ++ '/' :: f).reverse = f.reverse ++ '/' :: p.reverse := by simp
  rw [h, takeWhile_append_stop _ _ _ _ (ne_slash_of_not_mem hf) (by simp)]
  simp

theorem lastElem_of_not_mem (f : Str) (hf : '/' ∉ f) : filepath.lastElem f = f := by
  unfold filepath.lastElem
  rw [takeWhile_all _ _ (ne_slash_of_not_mem hf)]
  simp

theorem Split_append_slash (p f : Str) (hf : '/' ∉ f) :
    filepath.Split (p ++ '/' :: f) = (p ++ ['/'], f) := by
  unfold filepath.Split
  simp only [lastElem_append_slash p f hf]
  have : (p ++ '/' :: f).length - f.length = (p ++ ['/']).length := by
    simp; omega
  rw [this]
  have h2 : p ++ '/' :: f = (p ++ ['/']) ++ f := by simp
  rw [h2, List.take_left]

theorem Split_of_not_mem (f : Str) (hf : '/' ∉ f) : filepath.Split f = ([], f) := by
  unfold filepath.Split
  simp [lastElem_of_not_mem f hf]

theorem lastElem_length_le (p : Str) : (filepath.lastElem p).length ≤ p.length := by
  unfold filepath.lastElem
  have := (List.takeWhile_prefix (fun c : Char => c != '/') (l := p.reverse)).length_le
  simpa using this

theorem Split_fst_length_le (p : Str) : (filepath.Split p).1.length ≤ p.length := by
  unfold filepath.Split
  simp

theorem HasPrefix_singleton (s : Str) (c : Char) :
    strings.HasPrefix s [c] = (s.head? == some c) := by
  cases s with
  | nil => simp [strings.HasPrefix]
  | cons a t => simp [strings.HasPrefix]

theorem TrimSuffix_append_slash (p : Str) : strings.TrimSuffix (p ++ ['/']) ['/'] = p := by
  simp [strings.TrimSuffix, strings.HasSuffix]

theorem TrimSuffix_nil : strings.TrimSuffix [] ['/'] = [] := by
  simp [strings.TrimSuffix, strings.HasSuffix]

theorem dirPrefix_append (a b : List Str) :
    dirPrefix (a ++ b) = dirPrefix a ++ dirPrefix b := by
  induction a with
  | nil => rfl
  | cons d a ih => simp [dirPrefix, ih]

theorem dirPrefix_snoc (ds : List Str) (d : Str) :
    dirPrefix (ds ++ [d]) = (dirPrefix ds ++ d) ++ ['/'] := by
  simp [dirPrefix_append, dirPrefix]

theorem dirPrefix_ends (ds : List Str) (h : ds ≠ []) :
    ∃ q, dirPrefix ds = q ++ ['/'] := by
  induction ds using List.reverseRecOn with
  | nil => exact absurd rfl h
  | append_singleton ds d _ => exact ⟨dirPrefix ds ++ d, dirPrefix_snoc ds d⟩

theorem dirPrefix_ne_nil (ds : List Str) (h : ds ≠ []) : dirPrefix ds ≠ [] := by
  obtain ⟨q, hq⟩ := dirPrefix_ends ds h
  simp [hq]

theorem joinPath_snoc (ds : List Str) (f : Str) :
    joinPath (ds ++ [f]) = dirPrefix ds ++ f := by
  induction ds with
  | nil => rfl
  | cons d ds ih =>
    cases ds with
    | nil => simp [joinPath, dirPrefix]
    | cons e es =>
      simp only [List.cons_append] at ih ⊢
      show d ++ '/' :: joinPath (e :: (es ++ [f])) = _
      rw [ih]
      simp [dirPrefix]

theorem joinPath_eq (segs : List Str) (h : segs ≠ []) :
    joinPath segs = dirPrefix segs.dropLast ++ segs.getLast h := by
  conv_lhs => rw [← List.dropLast_append_getLast h]
  exact joinPath_snoc _ _

theorem Split_dirPrefix_append (ds : List Str) (f : Str) (hf : '/' ∉ f) :
    filepath.Split (dirPrefix ds ++ f) = (dirPrefix ds, f) := by
  by_cases h : ds = []
  · subst h
    simpa [dirPrefix] using Split_of_not_mem f hf
  · obtain ⟨q, hq⟩ := dirPrefix_ends ds h
    rw [hq]
    simpa using Split_append_slash q f hf

theorem lastElem_dirPrefix_append (ds : List Str) (f : Str) (hf : '/' ∉ f) :
    filepath.lastElem (dirPrefix ds ++ f) = f := by
  have := Split_dirPrefix_append ds f hf
  unfold filepath.Split at this
  exact (Prod.mk.inj this).2

theorem Base_dirPrefix_append (ds : List Str) (f : Str) (hf : IsElem f) :
    filepath.Base (dirPrefix ds ++ f) = f := by
  obtain ⟨hne, hs⟩ := hf
  unfold filepath.Base
  have h1 : dirPrefix ds ++ f ≠ [] := by simp [hne]
  obtain ⟨g, c, hg⟩ : ∃ g c, f = g ++ [c] :=
    ⟨f.dropLast, f.getLast hne, (List.dropLast_append_getLast hne).symm⟩
  have hc : c ≠ '/' := by
    intro hc
    apply hs
    rw [hg, hc]
    simp
  have h2 : (dirPrefix ds ++ f).reverse = c :: (g.reverse ++ (dirPrefix ds).reverse) := by
    rw [hg]; simp
  have h3 : ((dirPrefix ds ++ f).reverse.dropWhile (fun c => c == '/')).reverse
      = dirPrefix ds ++ f := by
    rw [h2, List.dropWhile_cons_of_neg (by simpa using hc), ← h2, List.reverse_reverse]
  simp only [h1, if_false, h3, lastElem_dirPrefix_append ds f hs, hne]

/-! ## Lemmas on the loop -/

theorem loopBody_nil : loopBody [] = LoopStep.brk := by decide

theorem loopBody_dirPrefix_snoc (ds : List Str) (d : Str) (hd : '/' ∉ d) :
    loopBody (dirPrefix (ds ++ [d])) =
      if ds = [] then LoopStep.brk
      else if reserved d then LoopStep.ret
      else LoopStep.next (dirPrefix ds) := by
  unfold loopBody
  have ht : strings.TrimSuffix (dirPrefix (ds ++ [d])) "/".toList = dirPrefix ds ++ d := by
    rw [dirPrefix_snoc]
    exact TrimSuffix_append_slash _
  simp only [ht, Split_dirPrefix_append ds d hd]
  by_cases h : ds = []
  · simp [h, dirPrefix]
  · simp [h, dirPrefix_ne_nil ds h, reserved]

theorem ancestorLoop_dirPrefix (ds : List Str) (hds : ∀ d ∈ ds, IsElem d) :
    ∀ (fuel : Nat) (r : Bool) (k : Nat),
      ancestorLoop fuel (dirPrefix ds) = some (r, k) → r = ds.tail.any reserved := by
  induction ds using List.reverseRecOn with
  | nil =>
    intro fuel r k h
    cases fuel with
    | zero => simp [ancestorLoop] at h
    | succ n =>
      have hb : loopBody (dirPrefix []) = LoopStep.brk := loopBody_nil
      simp [ancestorLoop, hb] at h
      simp [h.1]
  | append_singleton ds d ih =>
    intro fuel r k h
    have hd : IsElem d := hds d (by simp)
    have hds2 : ∀ e ∈ ds, IsElem e := fun e he => hds e (by simp [he])
    cases fuel with
    | zero => simp [ancestorLoop] at h
    | succ n =>
      have hb := loopBody_dirPrefix_snoc ds d hd.2
      by_cases h0 : ds = []
      · rw [if_pos h0] at hb
        simp [ancestorLoop, hb] at h
        simp [h0, h.1]
      · have htail : (ds ++ [d]).tail = ds.tail ++ [d] := by
          cases ds with
          | nil => exact absurd rfl h0
          | cons e es => rfl
        by_cases hr : reserved d = true
        · simp only [h0, if_false, hr, if_true] at hb
          simp [ancestorLoop, hb] at h
          simp [htail, hr, h.1]
        · simp only [h0, if_false, hr] at hb
          simp only [ancestorLoop, hb] at h
          cases hrec : ancestorLoop n (dirPrefix ds) with
          | none => simp [hrec] at h
          | some x =>
            have hx := ih hds2 n x.1 x.2 (by simp [hrec])
            simp [hrec] at h
            simp [htail, hr, ← h.1, hx]

theorem lastElem_eq_nil (dir : Str) (h : filepath.lastElem dir = []) :
    dir = [] ∨ ∃ q, dir = q ++ ['/'] := by
  by_cases hne : dir = []
  · exact Or.inl hne
  · right
    obtain ⟨g, c, hg⟩ : ∃ g c, dir = g ++ [c] :=
      ⟨dir.dropLast, dir.getLast hne, (List.dropLast_append_getLast hne).symm⟩
    refine ⟨g, ?_⟩
    by_cases hc : c = '/'
    · rw [hg, hc]
    · exfalso
      unfold filepath.lastElem at h
      rw [hg] at h
      simp [List.takeWhile, hc] at h

theorem HasSuffix_append_slash (q : Str) : strings.HasSuffix (q ++ ['/']) ['/'] = true := by
  simp [strings.HasSuffix]

/-- A pass that does not leave the loop hands on a directory part that is not
empty and strictly shorter than the one it was given. -/
theorem loopBody_next (dir d : Str) (h : loopBody dir = LoopStep.next d) :
    d ≠ [] ∧ d.length < dir.length := by
  unfold loopBody at h
  simp only at h
  split at h
  · cases h
  · rename_i hne
    split at h
    · cases h
    · injection h with h
      subst h
      refine ⟨hne, ?_⟩
      by_cases hs : strings.HasSuffix dir "/".toList = true
      · have hlen : 1 ≤ dir.length := by
          unfold strings.HasSuffix at hs
          simp at hs
          exact hs.1
        have hs2 : strings.HasSuffix dir ['/'] = true := hs
        have ht : (strings.TrimSuffix dir "/".toList).length = dir.length - 1 := by
          unfold strings.TrimSuffix
          simp [hs2]
        have := Split_fst_length_le (strings.TrimSuffix dir "/".toList)
        omega
      · have hs2 : ¬ strings.HasSuffix dir ['/'] = true := hs
        have ht : strings.TrimSuffix dir "/".toList = dir := by
          unfold strings.TrimSuffix
          simp [hs2]
        rw [ht] at hne ⊢
        have hl : filepath.lastElem dir ≠ [] := by
          intro hl
          rcases lastElem_eq_nil dir hl with h0 | ⟨q, hq⟩
          · apply hne
            rw [h0]
            decide
          · apply hs
            rw [hq]
            exact HasSuffix_append_slash q
        have hpos : 0 < (filepath.lastElem dir).length := List.length_pos.mpr hl
        have hle := lastElem_length_le dir
        unfold filepath.Split
        simp
        omega

theorem ancestorLoop_total_aux (n : Nat) :
    ∀ dir : Str, dir.length ≤ n →
      ∃ (r : Bool) (k : Nat), 1 ≤ k ∧ k ≤ max 1 dir.length ∧
        ∀ extra : Nat, ancestorLoop (k + extra) dir = some (r, k) := by
  induction n with
  | zero =>
    intro dir hlen
    have hd : dir = [] := List.length_eq_zero.mp (Nat.le_zero.mp hlen)
    subst hd
    refine ⟨false, 1, le_refl _, by simp, ?_⟩
    intro extra
    rw [Nat.add_comm]
    simp [ancestorLoop, loopBody_nil]
  | succ n ih =>
    intro dir hlen
    cases hb : loopBody dir with
    | brk =>
      refine ⟨false, 1, le_refl _, by simp, ?_⟩
      intro extra
      rw [Nat.add_comm]
      simp [ancestorLoop, hb]
    | ret =>
      refine ⟨true, 1, le_refl _, by simp, ?_⟩
      intro extra
      rw [Nat.add_comm]
      simp [ancestorLoop, hb]
    | next d =>
      obtain ⟨hne, hlt⟩ := loopBody_next dir d hb
      obtain ⟨r, k, hk1, hk2, hrun⟩ := ih d (by omega)
      have hdpos : 0 < d.length := List.length_pos.mpr hne
      refine ⟨r, k + 1, by omega, ?_, ?_⟩
      · have : max 1 d.length = d.length := by omega
        have : max 1 dir.length = dir.length := by omega
        omega
      · intro extra
        have : k + 1 + extra = (k + extra) + 1 := by omega
        rw [this]
        simp [ancestorLoop, hb, hrun extra]

/-- The loop ends from every directory part, within `max 1 dir.length` passes. -/
theorem ancestorLoop_total (dir : Str) :
    ∃ (r : Bool) (k : Nat), 1 ≤ k ∧ k ≤ max 1 dir.length ∧
      ∀ extra : Nat, ancestorLoop (k + extra) dir = some (r, k) :=
  ancestorLoop_total_aux dir.length dir (le_refl _)

theorem nameGuard_nil : nameGuard [] = true := by decide

/-- The filter ends on every name, within `name.length` passes of the loop. -/
theorem filterRun_total (name : Str) :
    ∃ (r : Bool) (k : Nat), k ≤ name.length ∧
      ∀ extra : Nat, filterRun (k + extra) name = some (r, k) := by
  by_cases hg : nameGuard name = true
  · exact ⟨true, 0, Nat.zero_le _, fun extra => by simp [filterRun, hg]⟩
  · have hne : name ≠ [] := by
      intro h
      apply hg
      rw [h]
      exact nameGuard_nil
    have hpos : 0 < name.length := List.length_pos.mpr hne
    obtain ⟨r, k, _, hk, hrun⟩ := ancestorLoop_total (filepath.Split name).1
    have hle := Split_fst_length_le name
    refine ⟨r, k, ?_, fun extra => by simp [filterRun, hg, hrun extra]⟩
    have : max 1 (filepath.Split name).1.length ≤ name.length := by omega
    omega

theorem ancestorLoop_mono (fuel : Nat) :
    ∀ (dir : Str) (x : Bool × Nat) (fuel2 : Nat), fuel ≤ fuel2 →
      ancestorLoop fuel dir = some x → ancestorLoop fuel2 dir = some x := by
  induction fuel with
  | zero =>
    intro dir x fuel2 _ h
    simp [ancestorLoop] at h
  | succ n ih =>
    intro dir x fuel2 hle h
    obtain ⟨m, rfl⟩ : ∃ m, fuel2 = m + 1 := ⟨fuel2 - 1, by omega⟩
    cases hb : loopBody dir with
    | brk => simpa [ancestorLoop, hb] using h
    | ret => simpa [ancestorLoop, hb] using h
    | next d =>
      simp only [ancestorLoop, hb] at h ⊢
      cases hrec : ancestorLoop n d with
      | none => simp [hrec] at h
      | some y =>
        rw [ih d y m (by omega) hrec]
        rw [hrec] at h
        exact h

theorem filterRun_mono (name : Str) (fuel fuel2 : Nat) (x : Bool × Nat)
    (hle : fuel ≤ fuel2) (h : filterRun fuel name = some x) :
    filterRun fuel2 name = some x := by
  unfold filterRun at h ⊢
  by_cases hg : nameGuard name = true
  · simpa [hg] using h
  · simp only [hg] at h ⊢
    exact ancestorLoop_mono fuel _ x fuel2 hle h

/-- The value of `shouldExclude` is the outcome of any run of the filter that ends. -/
theorem shouldExclude_of_filterRun (name : Str) (fuel : Nat) (r : Bool) (k : Nat)
    (h : filterRun fuel name = some (r, k)) : shouldExclude name = r := by
  obtain ⟨r2, k2, hk2, hrun⟩ := filterRun_total name
  have h1 : filterRun name.length name = some (r2, k2) := by
    have := hrun (name.length - k2)
    rwa [Nat.add_sub_cancel' hk2] at this
  have a := filterRun_mono name fuel (max fuel name.length) _ (le_max_left _ _) h
  have b := filterRun_mono name name.length (max fuel name.length) _ (le_max_right _ _) h1
  rw [a] at b
  have hr : r = r2 := by
    injection b with b
    exact (Prod.mk.inj b).1
  unfold shouldExclude
  rw [h1, hr]

/-- On a well-formed name the filter is settled by three tests: the first
character of the name, its last element, and the directory elements below the
top-level one. -/
theorem shouldExclude_wellFormed (ds : List Str) (f : Str)
    (hds : ∀ d ∈ ds, IsElem d) (hf : IsElem f) :
    shouldExclude (dirPrefix ds ++ f) =
      ((dirPrefix ds ++ f).head? == some '.' || (dirPrefix ds ++ f).head? == some '_'
        || f != "go.mod".toList || ds.tail.any reserved) := by
  obtain ⟨r, k, _, hrun⟩ := filterRun_total (dirPrefix ds ++ f)
  have h0 := hrun 0
  rw [shouldExclude_of_filterRun _ _ r k h0]
  have hguard : nameGuard (dirPrefix ds ++ f) =
      ((dirPrefix ds ++ f).head? == some '.' || (dirPrefix ds ++ f).head? == some '_'
        || f != "go.mod".toList) := by
    unfold nameGuard
    rw [Base_dirPrefix_append ds f hf]
    have e1 : ".".toList = ['.'] := rfl
    have e2 : "_".toList = ['_'] := rfl
    rw [e1, e2, HasPrefix_singleton, HasPrefix_singleton]
  unfold filterRun at h0
  rw [← hguard]
  by_cases hg : nameGuard (dirPrefix ds ++ f) = true
  · simp only [hg, if_true] at h0
    injection h0 with h0
    rw [← (Prod.mk.inj h0).1, hg]
    rfl
  · simp only [hg] at h0
    rw [Split_dirPrefix_append ds f hf.2] at h0
    have := ancestorLoop_dirPrefix ds hds _ r k h0
    rw [this]
    simp [hg]


/-! ## Lemmas on `findModules` -/

theorem visit_excluded {ε : Type} (P : Parser ε) (acc : List Str) (f : File ε)
    (hx : shouldExclude f.Name = true) : visit P acc f = Outcome.returns (acc, none) := by
  simp [visit, hx]

theorem visit_ok {ε : Type} (P : Parser ε) (acc : List Str) (f : File ε) (p : Str)
    (hx : shouldExclude f.Name = false) (hr : readModule P f = Except.ok (some p)) :
    visit P acc f = Outcome.returns (acc ++ [p], none) := by
  unfold readModule at hr
  unfold visit
  simp only [hx, Bool.false_eq_true, if_false]
  cases hc : f.Contents with
  | error err => simp [hc] at hr
  | ok content =>
    simp only [hc] at hr ⊢
    cases hp : P f.Name content with
    | error err => simp [hp] at hr
    | ok m =>
      simp only [hp] at hr ⊢
      injection hr with hr
      cases hm : m.Module with
      | none => simp [hm] at hr
      | some md =>
        simp only [hm, Option.map_some', Option.some.injEq] at hr ⊢
        rw [hr]

theorem visit_error {ε : Type} (P : Parser ε) (acc : List Str) (f : File ε) (err : ε)
    (hx : shouldExclude f.Name = false) (hr : readModule P f = Except.error err) :
    visit P acc f = Outcome.returns (acc, some err) := by
  unfold readModule at hr
  unfold visit
  simp only [hx, Bool.false_eq_true, if_false]
  cases hc : f.Contents with
  | error e2 =>
    simp only [hc] at hr ⊢
    injection hr with hr
    rw [hr]
  | ok content =>
    simp only [hc] at hr ⊢
    cases hp : P f.Name content with
    | error e2 =>
      simp only [hp] at hr ⊢
      injection hr with hr
      rw [hr]
    | ok m => simp [hp] at hr

/-- A file that passes the filter and parses without a module directive makes
the callback panic. -/
theorem visit_bare {ε : Type} (P : Parser ε) (acc : List Str) (f : File ε)
    (hx : shouldExclude f.Name = false) (hr : readModule P f = Except.ok none) :
    visit P acc f = Outcome.panics := by
  unfold readModule at hr
  unfold visit
  simp only [hx, Bool.false_eq_true, if_false]
  cases hc : f.Contents with
  | error err => simp [hc] at hr
  | ok content =>
    simp only [hc] at hr ⊢
    cases hp : P f.Name content with
    | error err => simp [hp] at hr
    | ok m =>
      simp only [hp] at hr ⊢
      injection hr with hr
      cases hm : m.Module with
      | none => rfl
      | some md => simp [hm] at hr

theorem eligible_cons_excluded {ε : Type} (f : File ε) (tree : List (File ε))
    (hx : shouldExclude f.Name = true) : eligible (f :: tree) = eligible tree := by
  simp [eligible, hx]

theorem eligible_cons_kept {ε : Type} (f : File ε) (tree : List (File ε))
    (hx : shouldExclude f.Name = false) : eligible (f :: tree) = f :: eligible tree := by
  simp [eligible, hx]

/-- When every file the filter lets through reads and parses to a module
directive, the iteration ends without error and has appended their module
paths, one for each, in order. -/
theorem ForEach_visit_ok {ε : Type} (P : Parser ε) (tree : List (File ε))
    (hall : ∀ f ∈ tree, shouldExclude f.Name = false →
      ∃ p, readModule P f = Except.ok (some p)) :
    ∀ acc : List Str, ∃ paths : List Str,
      ForEach (visit P) tree acc = Outcome.returns (acc ++ paths, none) ∧
      paths.map (fun p => Except.ok (some p)) = (eligible tree).map (readModule P) := by
  induction tree with
  | nil =>
    intro acc
    exact ⟨[], by simp [ForEach], by simp [eligible]⟩
  | cons f tree ih =>
    intro acc
    have ih2 := ih (fun g hg => hall g (List.mem_cons_of_mem _ hg))
    by_cases hx : shouldExclude f.Name = true
    · obtain ⟨paths, h1, h2⟩ := ih2 acc
      refine ⟨paths, ?_, ?_⟩
      · simp only [ForEach, visit_excluded P acc f hx]
        exact h1
      · rw [eligible_cons_excluded f tree hx]
        exact h2
    · have hx2 : shouldExclude f.Name = false := by simpa using hx
      obtain ⟨p, hp⟩ := hall f (List.mem_cons_self _ _) hx2
      obtain ⟨paths, h1, h2⟩ := ih2 (acc ++ [p])
      refine ⟨p :: paths, ?_, ?_⟩
      · simp only [ForEach, visit_ok P acc f p hx2 hp]
        rw [h1]
        simp
      · rw [eligible_cons_kept f tree hx2]
        simp [hp, h2]

/-- When no file the filter lets through lacks a module directive, the iteration
returns an error exactly at the first file, in order, that the filter lets
through and that fails to read or to parse. -/
theorem ForEach_visit_error {ε : Type} (P : Parser ε) (tree : List (File ε)) (err : ε)
    (hdecl : ∀ f ∈ tree, shouldExclude f.Name = false → readModule P f ≠ Except.ok none) :
    ∀ acc : List Str,
      (∃ s, ForEach (visit P) tree acc = Outcome.returns (s, some err)) ↔
        ∃ pre f post, tree = pre ++ f :: post ∧ shouldExclude f.Name = false ∧
          readModule P f = Except.error err ∧
          ∀ g ∈ pre, shouldExclude g.Name = false →
            ∃ p, readModule P g = Except.ok (some p) := by
  induction tree with
  | nil =>
    intro acc
    simp [ForEach]
  | cons f tree ih =>
    intro acc
    have ih2 := ih (fun g hg => hdecl g (List.mem_cons_of_mem _ hg))
    by_cases hx : shouldExclude f.Name = true
    · simp only [ForEach, visit_excluded P acc f hx]
      rw [ih2 acc]
      constructor
      · rintro ⟨pre, g, post, ht, hg, hr, hpre⟩
        refine ⟨f :: pre, g, post, by simp [ht], hg, hr, ?_⟩
        intro k hk hkx
        rcases List.mem_cons.mp hk with rfl | hk
        · rw [hx] at hkx
          cases hkx
        · exact hpre k hk hkx
      · rintro ⟨pre, g, post, ht, hg, hr, hpre⟩
        cases pre with
        | nil =>
          simp only [List.nil_append, List.cons.injEq] at ht
          rw [← ht.1, hx] at hg
          cases hg
        | cons a pre =>
          simp only [List.cons_append, List.cons.injEq] at ht
          exact ⟨pre, g, post, ht.2, hg, hr,
            fun k hk hkx => hpre k (List.mem_cons_of_mem _ hk) hkx⟩
    · have hx2 : shouldExclude f.Name = false := by simpa using hx
      cases hr : readModule P f with
      | error e2 =>
        simp only [ForEach, visit_error P acc f e2 hx2 hr]
        constructor
        · rintro ⟨s, h⟩
          injection h with h
          have h2 := (Prod.mk.inj h).2
          injection h2 with h2
          subst h2
          exact ⟨[], f, tree, rfl, hx2, hr, by simp⟩
        · rintro ⟨pre, g, post, ht, hg, hrg, hpre⟩
          cases pre with
          | nil =>
            simp only [List.nil_append, List.cons.injEq] at ht
            rw [← ht.1, hr] at hrg
            injection hrg with hrg
            rw [hrg]
            exact ⟨acc, rfl⟩
          | cons a pre =>
            simp only [List.cons_append, List.cons.injEq] at ht
            obtain ⟨p, hp⟩ := hpre a (List.mem_cons_self _ _) (by rw [← ht.1]; exact hx2)
            rw [← ht.1, hr] at hp
            cases hp
      | ok r =>
        cases r with
        | none => exact absurd hr (hdecl f (List.mem_cons_self _ _) hx2)
        | some p =>
          simp only [ForEach, visit_ok P acc f p hx2 hr]
          rw [ih2 (acc ++ [p])]
          constructor
          · rintro ⟨pre, g, post, ht, hg, hrg, hpre⟩
            refine ⟨f :: pre, g, post, by simp [ht], hg, hrg, ?_⟩
            intro k hk hkx
            rcases List.mem_cons.mp hk with rfl | hk
            · exact ⟨p, hr⟩
            · exact hpre k hk hkx
          · rintro ⟨pre, g, post, ht, hg, hrg, hpre⟩
            cases pre with
            | nil =>
              simp only [List.nil_append, List.cons.injEq] at ht
              rw [← ht.1, hr] at hrg
              cases hrg
            | cons a pre =>
              simp only [List.cons_append, List.cons.injEq] at ht
              exact ⟨pre, g, post, ht.2, hg, hrg,
                fun k hk hkx => hpre k (List.mem_cons_of_mem _ hk) hkx⟩

theorem ForEach_skip_excluded {ε : Type} (P : Parser ε) (pre post : List (File ε))
    (g : File ε) (hx : shouldExclude g.Name = true) :
    ∀ acc : List Str,
      ForEach (visit P) (pre ++ g :: post) acc = ForEach (visit P) (pre ++ post) acc := by
  induction pre with
  | nil =>
    intro acc
    simp only [List.nil_append, ForEach, visit_excluded P acc g hx]
  | cons a pre ih =>
    intro acc
    simp only [List.cons_append, ForEach]
    rcases hv : visit P acc a with ⟨s2, _ | e⟩ | _
    · simp only
      exact ih s2
    · rfl
    · rfl

/-- A file the filter excludes has no effect on what `findModules` does,
whatever reading or parsing it would give. -/
theorem findModules_skip_excluded {ε : Type} (P : Parser ε) (pre post : List (File ε))
    (g : File ε) (hx : shouldExclude g.Name = true) :
    findModules P (pre ++ g :: post) = findModules P (pre ++ post) := by
  unfold findModules
  rw [ForEach_skip_excluded P pre post g hx []]

/-- Apart from the panic on a go.mod without module directive: when every file
that passes the filter reads and parses to a module directive, `findModules`
returns no error and one module path for each such file, in order. -/
theorem findModules_of_declared {ε : Type} (P : Parser ε) (tree : List (File ε))
    (hall : ∀ f ∈ tree, shouldExclude f.Name = false →
      ∃ p, readModule P f = Except.ok (some p)) :
    ∃ paths : List Str, findModules P tree = Outcome.returns (paths, none) ∧
      paths.map (fun p => Except.ok (some p)) = (eligible tree).map (readModule P) := by
  obtain ⟨paths, h1, h2⟩ := ForEach_visit_ok P tree hall []
  refine ⟨paths, ?_, h2⟩
  unfold findModules
  rw [h1]
  rfl

/-- Apart from the panic on a go.mod without module directive: `findModules`
returns the error `err`, with the nil list, exactly when `err` is the error of
the first file, in order, that passes the filter and fails to read or parse. -/
theorem findModules_error_of_declared {ε : Type} (P : Parser ε) (tree : List (File ε))
    (err : ε)
    (hdecl : ∀ f ∈ tree, shouldExclude f.Name = false → readModule P f ≠ Except.ok none) :
    findModules P tree = Outcome.returns ([], some err) ↔
      ∃ pre f post, tree = pre ++ f :: post ∧ shouldExclude f.Name = false ∧
        readModule P f = Except.error err ∧
        ∀ g ∈ pre, shouldExclude g.Name = false →
          ∃ p, readModule P g = Except.ok (some p) := by
  rw [← ForEach_visit_error P tree err hdecl []]
  unfold findModules
  rcases ForEach (visit P) tree [] with ⟨s, _ | e⟩ | _
  · simp
  · simp
  · simp

/-! ## Lemmas on the generation loop -/

theorem HasPrefix_iff (s pre : Str) : strings.HasPrefix s pre = true ↔ pre <+: s := by
  unfold strings.HasPrefix
  rw [Bool.and_eq_true, decide_eq_true_iff, beq_iff_eq, List.prefix_iff_eq_take]
  constructor
  · rintro ⟨_, h⟩
    exact h.symm
  · intro h
    refine ⟨?_, h.symm⟩
    have := congrArg List.length h
    rw [List.length_take] at this
    omega

/-- When no call fails, the loop writes the page of each module that has the import
prefix, in order, and runs to its end. -/
theorem generate_of_succeeds (e : Escapers) (fs : FileSystem) (cfg : Config)
    (modules : List Str)
    (hok : ∀ m ∈ modules, strings.HasPrefix m cfg.importPrefix = true →
      writeSucceeds e fs cfg m = true) :
    generate e fs cfg modules =
      ((modules.filter (fun m => strings.HasPrefix m cfg.importPrefix)).map (page e cfg),
        true) := by
  induction modules with
  | nil => rfl
  | cons m rest ih =>
    have ih2 := ih (fun k hk hp => hok k (List.mem_cons_of_mem _ hk) hp)
    by_cases hp : strings.HasPrefix m cfg.importPrefix = true
    · have hw := hok m (List.mem_cons_self _ _) hp
      unfold writeSucceeds indexPath at hw
      simp only [Bool.and_eq_true] at hw
      obtain ⟨⟨⟨h1, h2⟩, h3⟩, h4⟩ := hw
      unfold generate
      simp only [hp, h1, h2, h3, h4, ih2, Bool.not_true, Bool.false_eq_true, if_false,
        List.filter_cons_of_pos, List.map_cons]
      rfl
    · have hp2 : strings.HasPrefix m cfg.importPrefix = false := by simpa using hp
      unfold generate
      simp only [hp2, Bool.not_false, if_true, ih2]
      rw [List.filter_cons_of_neg (by simp [hp2])]

theorem writeSucceeds_sound (e : Escapers) (cfg : Config) (m : Str) :
    writeSucceeds e FileSystem.sound cfg m = true := rfl

theorem generate_sound (e : Escapers) (cfg : Config) (modules : List Str) :
    generate e FileSystem.sound cfg modules =
      ((modules.filter (fun m => strings.HasPrefix m cfg.importPrefix)).map (page e cfg),
        true) :=
  generate_of_succeeds e FileSystem.sound cfg modules
    (fun m _ _ => writeSucceeds_sound e cfg m)

/-! ## Lemmas on counting -/

theorem reserved_eq_false (s : Str) :
    reserved s = false ↔ s ≠ "internal".toList ∧ s ≠ "testdata".toList := by
  simp [reserved]

theorem inner_dirs_iff (segs : List Str) :
    (segs.dropLast.tail.any reserved = false) ↔
      ∀ i, 1 ≤ i → i + 2 ≤ segs.length → ∀ s, segs[i]? = some s →
        s ≠ "internal".toList ∧ s ≠ "testdata".toList := by
  rw [List.any_eq_false]
  constructor
  · intro h i hi1 hi2 s hs
    rw [← reserved_eq_false]
    have hmem : s ∈ segs.dropLast.tail := by
      rw [List.mem_iff_getElem?]
      refine ⟨i - 1, ?_⟩
      rw [List.getElem?_tail, List.getElem?_dropLast]
      have h1 : i - 1 + 1 = i := by omega
      have h2 : i < segs.length - 1 := by omega
      rw [h1, if_pos h2, hs]
    simpa using h s hmem
  · intro h s hmem
    rw [List.mem_iff_getElem?] at hmem
    obtain ⟨j, hj⟩ := hmem
    rw [List.getElem?_tail, List.getElem?_dropLast] at hj
    by_cases hlt : j + 1 < segs.length - 1
    · rw [if_pos hlt] at hj
      have := h (j + 1) (by omega) (by omega) s hj
      rw [← reserved_eq_false] at this
      simp [this]
    · rw [if_neg hlt] at hj
      cases hj

theorem shouldExclude_joinPath (segs : List Str) (hwf : WellFormed segs) :
    shouldExclude (joinPath segs) =
      ((joinPath segs).head? == some '.' || (joinPath segs).head? == some '_'
        || segs.getLast hwf.1 != "go.mod".toList || segs.dropLast.tail.any reserved) := by
  have hj := joinPath_eq segs hwf.1
  have hds : ∀ d ∈ segs.dropLast, IsElem d :=
    fun d hd => hwf.2 d (List.dropLast_subset segs hd)
  have hf : IsElem (segs.getLast hwf.1) := hwf.2 _ (List.getLast_mem hwf.1)
  rw [hj]
  exact shouldExclude_wellFormed segs.dropLast (segs.getLast hwf.1) hds hf

theorem visit_of_kept {ε : Type} (P : Parser ε) (acc : List Str) (f : File ε)
    (hx : shouldExclude f.Name = false) :
    visit P acc f =
      match readModule P f with
      | Except.ok (some p) => Outcome.returns (acc ++ [p], none)
      | Except.ok none => Outcome.panics
      | Except.error err => Outcome.returns (acc, some err) := by
  cases hr : readModule P f with
  | error err => exact visit_error P acc f err hx hr
  | ok r =>
    cases r with
    | none => exact visit_bare P acc f hx hr
    | some p => exact visit_ok P acc f p hx hr

theorem Base_of_no_trailing_slash (name : Str) (hne : name ≠ [])
    (hs : name.getLast? ≠ some '/') : filepath.Base name = (filepath.Split name).2 := by
  obtain ⟨g, c, hg⟩ : ∃ g c, name = g ++ [c] :=
    ⟨name.dropLast, name.getLast hne, (List.dropLast_append_getLast hne).symm⟩
  have hc : c ≠ '/' := by
    intro hc
    apply hs
    rw [hg, hc]
    simp
  unfold filepath.Base
  have h2 : name.reverse = c :: g.reverse := by rw [hg]; simp
  have h3 : (name.reverse.dropWhile (fun c => c == '/')).reverse = name := by
    rw [h2, List.dropWhile_cons_of_neg (by simpa using hc), ← h2, List.reverse_reverse]
  have h4 : filepath.lastElem name ≠ [] := by
    intro h
    rcases lastElem_eq_nil name h with h0 | ⟨q, hq⟩
    · exact hne h0
    · apply hs
      rw [hq]
      simp
  simp only [hne, if_false, h3, h4]
  rfl

/-! ## The claims on the filter -/

/-- C1, at the input where the code departs from it: a go.mod file directly under,
or deeper below, a top-level directory named `internal` or `testdata` passes the
filter of `findModules`, because the loop leaves through `break` before it
compares the top-level element; the file is parsed and its module path is in the
result.  Below the top level the same directory name does exclude the file. -/
theorem toplevel_reserved_not_excluded :
    shouldExclude "internal/go.mod".toList = false ∧
    shouldExclude "testdata/go.mod".toList = false ∧
    shouldExclude "internal/x/go.mod".toList = false ∧
    shouldExclude "a/internal/go.mod".toList = true ∧
    findModules exampleParser
        [{ Name := "internal/go.mod".toList,
           Contents := Except.ok "module x/internal".toList }] =
      Outcome.returns (["x/internal".toList], none) := by
  decide

/-- C2 as stated fails: the file `.a/go.mod` has base name go.mod and no
directory element named `internal` or `testdata`, and the filter excludes it. -/
theorem hidden_toplevel_excluded :
    WellFormed [".a".toList, "go.mod".toList] ∧
    [".a".toList, "go.mod".toList].getLast? = some "go.mod".toList ∧
    (∀ d ∈ [".a".toList, "go.mod".toList].dropLast, reserved d = false) ∧
    shouldExclude (joinPath [".a".toList, "go.mod".toList]) = true ∧
    shouldExclude (joinPath ["_a".toList, "go.mod".toList]) = true := by
  decide

/-- C2, amended: a file name of the tree whose last element is go.mod, none of
whose directory elements is `internal` or `testdata`, and which does not begin
with `.` or `_`, is not excluded; the callback reads it and hands it to the
parser, so that its outcome is the outcome of reading and parsing (an error, a
module path appended, or the panic on a parsed file without module directive). -/
theorem plain_gomod_not_excluded (segs : List Str) (hwf : WellFormed segs)
    (hlast : segs.getLast? = some "go.mod".toList)
    (hdirs : ∀ d ∈ segs.dropLast, reserved d = false)
    (hhead : (joinPath segs).head? ≠ some '.' ∧ (joinPath segs).head? ≠ some '_') :
    shouldExclude (joinPath segs) = false ∧
    ∀ (ε : Type) (P : Parser ε) (acc : List Str) (c : Except ε Str),
      visit P acc { Name := joinPath segs, Contents := c } =
        match readModule P { Name := joinPath segs, Contents := c } with
        | Except.ok (some p) => Outcome.returns (acc ++ [p], none)
        | Except.ok none => Outcome.panics
        | Except.error err => Outcome.returns (acc, some err) := by
  have hx : shouldExclude (joinPath segs) = false := by
    rw [shouldExclude_joinPath segs hwf]
    have h1 : segs.getLast hwf.1 = "go.mod".toList := by
      rw [List.getLast?_eq_getLast _ hwf.1] at hlast
      exact Option.some.inj hlast
    have h2 : segs.dropLast.tail.any reserved = false := by
      rw [List.any_eq_false]
      intro d hd
      simpa using hdirs d (List.tail_subset _ hd)
    simp [h1, h2, hhead.1, hhead.2]
  exact ⟨hx, fun ε P acc c => visit_of_kept P acc _ hx⟩

/-- The amended C2 at the name `cmd/tool/go.mod`, which meets its hypotheses. -/
theorem plain_gomod_not_excluded_witness :
    shouldExclude (joinPath ["cmd".toList, "tool".toList, "go.mod".toList]) = false :=
  (plain_gomod_not_excluded ["cmd".toList, "tool".toList, "go.mod".toList]
    (by decide) (by decide) (by decide) (by decide)).1

/-- C8: a file name that does not end in `/` (as no file name of a tree does) and
whose text after the last `/` is not exactly go.mod is excluded, whatever its
directory: the callback returns nil without reading or parsing the file and
leaves the module list as it was. -/
theorem other_basename_excluded (name : Str) (hs : name.getLast? ≠ some '/')
    (hbase : (filepath.Split name).2 ≠ "go.mod".toList) :
    shouldExclude name = true ∧
    ∀ (ε : Type) (P : Parser ε) (acc : List Str) (c : Except ε Str),
      visit P acc { Name := name, Contents := c } = Outcome.returns (acc, none) := by
  have hg : nameGuard name = true := by
    by_cases hne : name = []
    · rw [hne]
      exact nameGuard_nil
    · unfold nameGuard
      rw [Base_of_no_trailing_slash name hne hs]
      have : ((filepath.Split name).2 != "go.mod".toList) = true := by
        simpa using hbase
      rw [this]
      simp
  have hx : shouldExclude name = true :=
    shouldExclude_of_filterRun name 0 true 0 (by simp [filterRun, hg])
  exact ⟨hx, fun ε P acc c => visit_excluded P acc _ hx⟩

/-- The statement of C8 at the name `a/b/go.sum`, which meets its hypotheses. -/
theorem other_basename_excluded_witness :
    shouldExclude "a/b/go.sum".toList = true :=
  (other_basename_excluded "a/b/go.sum".toList (by decide) (by decide)).1

/-- C9: for a relative path `s0/.../s(n-1)` of `n ≥ 1` elements, none empty and
none containing `/`, the file passes the filter (and so is parsed) exactly when
its last element is go.mod, the first character of the whole path is neither `.`
nor `_`, and no element `si` with `1 ≤ i ≤ n-2` is `internal` or `testdata`.  The
first character of the path is the first character of `s0`.  A file that passes
is read and parsed by the callback, and a file that does not is left alone. -/
theorem filter_characterisation (segs : List Str) (hwf : WellFormed segs) :
    (shouldExclude (joinPath segs) = false ↔
      segs.getLast? = some "go.mod".toList ∧
      ((joinPath segs).head? ≠ some '.' ∧ (joinPath segs).head? ≠ some '_') ∧
      ∀ i, 1 ≤ i → i + 2 ≤ segs.length → ∀ s, segs[i]? = some s →
        s ≠ "internal".toList ∧ s ≠ "testdata".toList) ∧
    (joinPath segs).head? = (segs.headD []).head? ∧
    (∀ (ε : Type) (P : Parser ε) (acc : List Str) (c : Except ε Str),
      visit P acc { Name := joinPath segs, Contents := c } =
        if shouldExclude (joinPath segs) then Outcome.returns (acc, none)
        else
          match readModule P { Name := joinPath segs, Contents := c } with
          | Except.ok (some p) => Outcome.returns (acc ++ [p], none)
          | Except.ok none => Outcome.panics
          | Except.error err => Outcome.returns (acc, some err)) := by
  refine ⟨?_, ?_, ?_⟩
  rotate_left 2
  · intro ε P acc c
    by_cases hx : shouldExclude (joinPath segs) = true
    · rw [if_pos hx]
      exact visit_excluded P acc _ hx
    · rw [if_neg hx]
      exact visit_of_kept P acc _ (by simpa using hx)
  · rw [shouldExclude_joinPath segs hwf, ← inner_dirs_iff,
      List.getLast?_eq_getLast _ hwf.1]
    simp only [Bool.or_eq_false_iff, bne_eq_false_iff_eq, beq_eq_false_iff_ne, ne_eq,
      Option.some.injEq]
    tauto
  · obtain ⟨hne, helem⟩ := hwf
    cases segs with
    | nil => exact absurd rfl hne
    | cons s rest =>
      have hs : s ≠ [] := (helem s (List.mem_cons_self _ _)).1
      cases s with
      | nil => exact absurd rfl hs
      | cons c t =>
        cases rest with
        | nil => rfl
        | cons u rest => rfl

/-- The statement of C9 at the path `a/b/go.mod`, which is well formed. -/
theorem filter_characterisation_witness :
    shouldExclude (joinPath ["a".toList, "b".toList, "go.mod".toList]) = false ↔
      ["a".toList, "b".toList, "go.mod".toList].getLast? = some "go.mod".toList ∧
      ((joinPath ["a".toList, "b".toList, "go.mod".toList]).head? ≠ some '.' ∧
        (joinPath ["a".toList, "b".toList, "go.mod".toList]).head? ≠ some '_') ∧
      ∀ i, 1 ≤ i → i + 2 ≤ ["a".toList, "b".toList, "go.mod".toList].length →
        ∀ s, ["a".toList, "b".toList, "go.mod".toList][i]? = some s →
          s ≠ "internal".toList ∧ s ≠ "testdata".toList :=
  (filter_characterisation ["a".toList, "b".toList, "go.mod".toList]
    (by decide)).1

/-- C10: on every file name, with leading, trailing or repeated `/` or without,
the loop of `findModules` ends.  A pass that does not leave the loop hands on a
strictly shorter directory part; from the directory part of the name the loop
ends within `max 1 name.length` passes; and in the callback, where the empty name
does not reach the loop, it ends within `name.length` passes. -/
theorem ancestor_loop_terminates (name : Str) :
    (∀ dir d : Str, loopBody dir = LoopStep.next d → d.length < dir.length) ∧
    (∃ (r : Bool) (k : Nat), 1 ≤ k ∧ k ≤ max 1 name.length ∧
      ∀ extra : Nat, ancestorLoop (k + extra) (filepath.Split name).1 = some (r, k)) ∧
    (∃ (r : Bool) (k : Nat), k ≤ name.length ∧
      ∀ extra : Nat, filterRun (k + extra) name = some (r, k)) := by
  refine ⟨fun dir d h => (loopBody_next dir d h).2, ?_, filterRun_total name⟩
  obtain ⟨r, k, h1, h2, h3⟩ := ancestorLoop_total (filepath.Split name).1
  have hle := Split_fst_length_le name
  exact ⟨r, k, h1, by omega, h3⟩

/-! ## The claims on `findModules` -/

/-- C3, at an input where the code departs from it: in the tree `bareThenMalformed`
both files pass the filter, the first parses without a module directive and the
second fails to parse.  The claim has `findModules` return the error of the
second file; the callback panics on the first, at `m.Module.Mod.Path`, and
`findModules` returns nothing. -/
theorem findModules_panics_before_error :
    (∀ f ∈ bareThenMalformed, shouldExclude f.Name = false) ∧
    bareThenMalformed.map (readModule exampleParser) = [Except.ok none, Except.error ()] ∧
    findModules exampleParser bareThenMalformed = Outcome.panics ∧
    (∀ r, findModules exampleParser bareThenMalformed ≠ Outcome.returns r) := by
  refine ⟨by decide, rfl, by decide, ?_⟩
  intro r h
  have hp : findModules exampleParser bareThenMalformed = Outcome.panics := by decide
  rw [hp] at h
  cases h

/-- C4, at an input where the code departs from it: in the tree `declaredThenBare`
every file passes the filter, reads and parses without error, the second without
a module directive.  The claim has `findModules` return no error and the list of
declared paths; the callback panics on the second file, at `m.Module.Mod.Path`,
and `findModules` returns nothing.  On the tree `exampleTree`, where every file
that passes declares a module, the result is as the claim says. -/
theorem findModules_panics_on_bare :
    (∀ f ∈ declaredThenBare, shouldExclude f.Name = false) ∧
    declaredThenBare.map (readModule exampleParser)
      = [Except.ok (some "x/a".toList), Except.ok none] ∧
    findModules exampleParser declaredThenBare = Outcome.panics ∧
    findModules exampleParser exampleTree
      = Outcome.returns (["x/a".toList, "x/a".toList, "x".toList], none) :=
  ⟨by decide, rfl, by decide, by decide⟩

/-! ## The claims on the generation loop -/

/-- C5: in a run of the loop in which no call fails, the pass for a module `m`
writes its page when the import prefix is a literal prefix of `m` (some text
appended to the prefix gives `m`) and writes nothing when it is not; the test of
the code is exactly that relation.  So `example.com/foo` is written under the
prefixes `example.com/foo` and `example.com/f`, and the prefix `example.com/foo`
takes `example.com/foobar` and `example.com/foo/bar` as well. -/
theorem page_iff_literal_prefix (e : Escapers) (cfg : Config) (before after : List Str)
    (m : Str) :
    ( cfg.importPrefix <+: m →
      (generate e FileSystem.sound cfg (before ++ m :: after)).1 =
        (generate e FileSystem.sound cfg before).1 ++
          page e cfg m :: (generate e FileSystem.sound cfg after).1) ∧
    (¬ cfg.importPrefix <+: m →
      (generate e FileSystem.sound cfg (before ++ m :: after)).1 =
        (generate e FileSystem.sound cfg before).1 ++
          (generate e FileSystem.sound cfg after).1) ∧
    ( strings.HasPrefix m cfg.importPrefix = true ↔ ∃ t, m = cfg.importPrefix ++ t) ∧
    (∀ (repo out : Str) (r : Bool),
      (generate e FileSystem.sound
          { importPrefix := "example.com/foo".toList, repoURL := repo, outputDir := out,
            godocRedirect := r }
          ["example.com/foo".toList, "example.com/foobar".toList,
            "example.com/foo/bar".toList, "example.com/bar".toList]).1.map
        (fun d => d.path) =
        [filepath.Join (filepath.Join out "example.com/foo".toList) "index.html".toList,
          filepath.Join (filepath.Join out "example.com/foobar".toList) "index.html".toList,
          filepath.Join (filepath.Join out "example.com/foo/bar".toList) "index.html".toList]) ∧
    (∀ (repo out : Str) (r : Bool),
      (generate e FileSystem.sound
          { importPrefix := "example.com/f".toList, repoURL := repo, outputDir := out,
            godocRedirect := r }
          ["example.com/foo".toList]).1.map (fun d => d.path) =
        [filepath.Join (filepath.Join out "example.com/foo".toList) "index.html".toList]) := by
  refine ⟨?_, ?_, ?_, ?_, ?_⟩
  · intro h
    have hp := (HasPrefix_iff m cfg.importPrefix).mpr h
    simp only [generate_sound, List.filter_append, List.map_append]
    rw [List.filter_cons_of_pos (by simpa using hp), List.map_cons]
  · intro h
    have hp : ¬ strings.HasPrefix m cfg.importPrefix = true :=
      fun hp => h ((HasPrefix_iff m cfg.importPrefix).mp hp)
    simp only [generate_sound, List.filter_append, List.map_append]
    rw [List.filter_cons_of_neg (by simpa using hp)]
  · rw [HasPrefix_iff]
    constructor
    · rintro ⟨t, ht⟩
      exact ⟨t, ht.symm⟩
    · rintro ⟨t, ht⟩
      exact ⟨t, ht.symm⟩
  · intro repo out r
    rfl
  · intro repo out r
    rfl

/-- C6: when no call fails, the loop writes exactly one document for each entry
of the module list that has the import prefix, in list order, and runs to its
end.  The document of `m` is at the output directory joined with `m` joined with
`index.html`; its text is the template run on the import prefix of the command
line, the VCS `git`, the repository URL and the URL `https://pkg.go.dev/`
followed by `m` as it is.  For `x/a` and `x/b` under the prefix `x` there are two
documents, each with its own documentation URL and both with the same
repository root. -/
theorem generate_documents (e : Escapers) (fs : FileSystem) (cfg : Config)
    (modules : List Str)
    (hok : ∀ m ∈ modules, strings.HasPrefix m cfg.importPrefix = true →
      writeSucceeds e fs cfg m = true) :
    generate e fs cfg modules =
      ((modules.filter (fun m => strings.HasPrefix m cfg.importPrefix)).map (page e cfg),
        true) ∧
    (∀ m : Str,
      (page e cfg m).path =
        filepath.Join (filepath.Join cfg.outputDir m) "index.html".toList ∧
      (page e cfg m).content =
        tmpl e
          { GoImport :=
              { ImportPrefix := cfg.importPrefix, VCS := "git".toList,
                RepoRoot := cfg.repoURL },
            GodocRedirect := cfg.godocRedirect,
            GodocURL := "https://pkg.go.dev/".toList ++ m }) ∧
    (∀ (repo : Str) (r : Bool),
      generate e FileSystem.sound
          { importPrefix := "x".toList, repoURL := repo, outputDir := "html".toList,
            godocRedirect := r }
          ["x/a".toList, "x/b".toList] =
        ([ { path := "html/x/a/index.html".toList,
             content := tmpl e
               { GoImport := { ImportPrefix := "x".toList, VCS := "git".toList, RepoRoot := repo },
                 GodocRedirect := r, GodocURL := "https://pkg.go.dev/x/a".toList } },
           { path := "html/x/b/index.html".toList,
             content := tmpl e
               { GoImport := { ImportPrefix := "x".toList, VCS := "git".toList, RepoRoot := repo },
                 GodocRedirect := r, GodocURL := "https://pkg.go.dev/x/b".toList } } ],
          true)) := by
  refine ⟨generate_of_succeeds e fs cfg modules hok, fun m => ⟨rfl, rfl⟩, ?_⟩
  intro repo r
  rfl

/-- The statement of C6 at the modules `x/a`, `y/b` and `x/b` under the prefix
`x`, on a file system that fails only below `html/y`: the two modules with the
prefix are written, in order. -/
theorem generate_documents_witness :
    generate template.escapers exampleFS exampleConfig
        ["x/a".toList, "y/b".toList, "x/b".toList] =
      ([page template.escapers exampleConfig "x/a".toList,
        page template.escapers exampleConfig "x/b".toList], true) :=
  (generate_documents template.escapers exampleFS exampleConfig
    ["x/a".toList, "y/b".toList, "x/b".toList] (by
      intro m hm hp
      simp only [List.mem_cons, List.mem_singleton, List.not_mem_nil, or_false] at hm
      rcases hm with rfl | rfl | rfl
      · decide
      · exact absurd hp (by decide)
      · decide)).1

/-! ## The claim on the template -/

set_option maxRecDepth 20000

end Modvanity
